import Mathlib

/-!
Verification of the RustSim discrete-event simulation core.

The definitions below are a shallow embedding of the Rust sources:
`src/scheduler.rs` (EventEntry, Clock, Scheduler over `std::collections::BinaryHeap`),
`src/container.rs` (ComponentState, Container), and `src/simulation.rs`
(Simulation driver).  Virtual time (`std::time::Duration`) is modelled as `Nat`.
Rust panics are modelled as `Except` errors carrying the state at the panic point.
`std::collections::BinaryHeap` is embedded by its actual algorithm
(`push` via `sift_up`, `pop` via swap-with-last plus `sift_down_to_bottom`),
since the tie-breaking behaviour of `pop` for equal elements depends on it.
-/

namespace RustSim

/-- Key: a compact handle `{ id }` for a process (module `keys`, re-exported in `lib.rs`). -/
structure Key where
  id : Nat
deriving Repr, DecidableEq

/-- EventEntry from `scheduler.rs`: a scheduled time and the component key.
The Rust struct stores `Reverse(time)`; we keep the plain time and put the
reversal into the comparison `ele`. -/
structure EventEntry where
  time : Nat
  component : Key
deriving Repr, DecidableEq

instance : Inhabited EventEntry := ⟨⟨0, ⟨0⟩⟩⟩

/-- The order `a <= b` on `EventEntry` used by the heap.  The Rust `Ord`
implementation compares `Reverse(self.time)` with `Reverse(other.time)` and
ignores the component, so `a <= b` holds iff `b.time <= a.time`. -/
def ele (a b : EventEntry) : Prop := b.time ≤ a.time

instance (a b : EventEntry) : Decidable (ele a b) := Nat.decLe b.time a.time

theorem ele_refl (a : EventEntry) : ele a a := Nat.le_refl a.time

theorem ele_trans {a b c : EventEntry} : ele a b → ele b c → ele a c := by
  intro h1 h2
  exact Nat.le_trans h2 h1

theorem ele_total {a b : EventEntry} : ¬ ele a b → ele b a := by
  intro h
  exact Nat.le_of_lt (Nat.lt_of_not_le h)

/-- Indexed read with a default, used to model slot reads of the heap's vector. -/
def lget : List EventEntry → Nat → EventEntry
  | [], _ => default
  | a :: _, 0 => a
  | _ :: l, n + 1 => lget l n

theorem lget_set_self {l : List EventEntry} {i : Nat} (a : EventEntry)
    (h : i < l.length) : lget (l.set i a) i = a := by
  induction l generalizing i with
  | nil => cases h
  | cons x xs ih =>
    cases i with
    | zero => rfl
    | succ n => exact ih (Nat.lt_of_succ_lt_succ h)

theorem lget_set_ne {l : List EventEntry} {i j : Nat} (a : EventEntry)
    (h : i ≠ j) : lget (l.set i a) j = lget l j := by
  induction l generalizing i j with
  | nil => rfl
  | cons x xs ih =>
    cases i with
    | zero =>
      cases j with
      | zero => exact absurd rfl h
      | succ m => rfl
    | succ n =>
      cases j with
      | zero => rfl
      | succ m =>
        exact ih (fun hc => h (congrArg Nat.succ hc))

theorem lget_append_left {l l' : List EventEntry} {i : Nat}
    (h : i < l.length) : lget (l ++ l') i = lget l i := by
  induction l generalizing i with
  | nil => cases h
  | cons x xs ih =>
    cases i with
    | zero => rfl
    | succ n => exact ih (Nat.lt_of_succ_lt_succ h)

theorem lget_append_last (l : List EventEntry) (a : EventEntry) :
    lget (l ++ [a]) l.length = a := by
  induction l with
  | nil => rfl
  | cons x xs ih => exact ih

theorem lget_dropLast {l : List EventEntry} {i : Nat}
    (h : i + 1 < l.length) : lget l.dropLast i = lget l i := by
  induction l generalizing i with
  | nil => cases h
  | cons x xs ih =>
    cases xs with
    | nil => cases h with | step h' => cases h'
    | cons y ys =>
      cases i with
      | zero => rfl
      | succ n => exact ih (Nat.lt_of_succ_lt_succ h)

theorem lget_mem {l : List EventEntry} {i : Nat} (h : i < l.length) :
    lget l i ∈ l := by
  induction l generalizing i with
  | nil => cases h
  | cons x xs ih =>
    cases i with
    | zero => exact List.mem_cons_self _ _
    | succ n => exact List.mem_cons_of_mem _ (ih (Nat.lt_of_succ_lt_succ h))

theorem mem_of_mem_set {l : List EventEntry} {i : Nat} {a x : EventEntry}
    (h : x ∈ l.set i a) : x ∈ l ∨ x = a := by
  induction l generalizing i with
  | nil => cases h
  | cons y ys ih =>
    cases i with
    | zero =>
      cases h with
      | head => exact Or.inr rfl
      | tail _ h' => exact Or.inl (List.mem_cons_of_mem _ h')
    | succ n =>
      cases h with
      | head => exact Or.inl (List.mem_cons_self _ _)
      | tail _ h' =>
        cases ih h' with
        | inl hm => exact Or.inl (List.mem_cons_of_mem _ hm)
        | inr he => exact Or.inr he

theorem mem_dropLast {l : List EventEntry} {x : EventEntry}
    (h : x ∈ l.dropLast) : x ∈ l := by
  induction l with
  | nil => cases h
  | cons y ys ih =>
    cases ys with
    | nil => cases h
    | cons z zs =>
      cases h with
      | head => exact List.mem_cons_self _ _
      | tail _ h' => exact List.mem_cons_of_mem _ (ih h')

/-- Parent index in the implicit binary-heap tree: `(pos - 1) / 2`. -/
def parentIdx (pos : Nat) : Nat := (pos - 1) / 2

/-- The hole-based `sift_up` loop of `std::collections::BinaryHeap`.
`elem` is the element carried by the hole, `start` the barrier index and the
last two arguments are the vector and the hole position.  The first argument
is fuel; it is called with `fuel = pos`, which the loop can never exhaust
since the hole index strictly decreases. -/
def siftUpAux (elem : EventEntry) (start : Nat) :
    Nat → List EventEntry → Nat → List EventEntry × Nat
  | 0, data, pos => (data, pos)
  | fuel + 1, data, pos =>
    if start < pos then
      if ele elem (lget data (parentIdx pos)) then (data, pos)
      else siftUpAux elem start fuel (data.set pos (lget data (parentIdx pos))) (parentIdx pos)
    else (data, pos)

/-- Final write of a hole-based sift: run the `sift_up` loop from the hole
`r.2` in vector `r.1` and write `elem` at the final hole position. -/
def placeHole (elem : EventEntry) (start : Nat) (r : List EventEntry × Nat) : List EventEntry :=
  (siftUpAux elem start r.2 r.1 r.2).1.set (siftUpAux elem start r.2 r.1 r.2).2 elem

/-- `sift_up(start, pos)`: move the hole at `pos` up and write its element
at the final position. -/
def siftUp (data : List EventEntry) (start pos : Nat) : List EventEntry :=
  placeHole (lget data pos) start (data, pos)

/-- `BinaryHeap::push`: append, then sift the new element up from the old length. -/
def heapPush (data : List EventEntry) (item : EventEntry) : List EventEntry :=
  siftUp (data ++ [item]) 0 data.length

/-- Child selected by the descent of `sift_down_to_bottom`: the greater of the
two children (the right one on ties, per `child += (get(child) <= get(child+1))`). -/
def childSel (data : List EventEntry) (child : Nat) : Nat :=
  if ele (lget data child) (lget data (child + 1)) then child + 1 else child

/-- The descent loop of `sift_down_to_bottom`: move the hole to the bottom of
the heap along the path of greater children.  Fuel is called with `endd`,
which the loop can never exhaust since `child` strictly increases and stays
below `endd` while the loop runs. -/
def siftDownAux (endd : Nat) :
    Nat → List EventEntry → Nat → Nat → List EventEntry × Nat
  | 0, data, pos, child =>
    if child + 1 = endd then (data.set pos (lget data child), child)
    else (data, pos)
  | fuel + 1, data, pos, child =>
    if child + 2 ≤ endd then
      siftDownAux endd fuel (data.set pos (lget data (childSel data child)))
        (childSel data child) (2 * childSel data child + 1)
    else
      if child + 1 = endd then (data.set pos (lget data child), child)
      else (data, pos)

/-- `sift_down_to_bottom(pos)`: take the element at `pos`, move the hole to
the bottom along the path of greater children, then sift the element back up
towards `pos`. -/
def siftDownToBottom (data : List EventEntry) (pos : Nat) : List EventEntry :=
  placeHole (lget data pos) pos (siftDownAux data.length data.length data pos (2 * pos + 1))

/-- `BinaryHeap::pop`: remove the last element; if the heap is still nonempty,
swap it with the root and sift the new root down to the bottom. -/
def heapPop (data : List EventEntry) : Option (EventEntry × List EventEntry) :=
  match data with
  | [] => none
  | _ :: _ =>
    if data.dropLast.length = 0 then some (lget data (data.length - 1), data.dropLast)
    else
      some (lget data.dropLast 0,
        siftDownToBottom (data.dropLast.set 0 (lget data (data.length - 1))) 0)

theorem parentIdx_lt {i : Nat} (h : 0 < i) : parentIdx i < i := by
  unfold parentIdx
  omega

theorem parentIdx_le (i : Nat) : parentIdx i ≤ i := by
  unfold parentIdx
  omega

theorem child_ge {i p : Nat} (h0 : 0 < i) (h : parentIdx i = p) : 2 * p + 1 ≤ i := by
  unfold parentIdx at h
  omega

theorem child_cases {i p : Nat} (h0 : 0 < i) (h : parentIdx i = p) :
    i = 2 * p + 1 ∨ i = 2 * p + 2 := by
  unfold parentIdx at h
  omega

theorem parentIdx_child_left (p : Nat) : parentIdx (2 * p + 1) = p := by
  unfold parentIdx
  omega

theorem parentIdx_child_right (p : Nat) : parentIdx (2 * p + 2) = p := by
  unfold parentIdx
  omega

/-- Max-heap invariant of the backing vector: every non-root element is
`<=` its parent in the `ele` order (so the root has the minimal time). -/
def heapInv (d : List EventEntry) : Prop :=
  ∀ i, 0 < i → i < d.length → ele (lget d i) (lget d (parentIdx i))

/-- Heap invariant away from a hole at `pos`: the parent relation holds at
every index that is neither the hole nor a child of the hole. -/
def holeInvA (d : List EventEntry) (pos : Nat) : Prop :=
  ∀ i, 0 < i → i < d.length → i ≠ pos → parentIdx i ≠ pos →
    ele (lget d i) (lget d (parentIdx i))

/-- Constraint on the children of a hole during `sift_up`: they are `<=` the
carried element and (when the hole is not the root) `<=` the hole's parent. -/
def holeInvB (d : List EventEntry) (pos : Nat) (elem : EventEntry) : Prop :=
  ∀ i, 0 < i → i < d.length → parentIdx i = pos →
    ele (lget d i) elem ∧ (0 < pos → ele (lget d i) (lget d (parentIdx pos)))

/-- Constraint on the children of a hole during the descent of
`sift_down_to_bottom`: they are `<=` the hole's parent. -/
def holeInvC (d : List EventEntry) (pos : Nat) : Prop :=
  ∀ i, 0 < i → i < d.length → parentIdx i = pos →
    (0 < pos → ele (lget d i) (lget d (parentIdx pos)))

/-- Writing the hole element at the hole position restores the heap invariant
as soon as the hole is `<=` its parent (or is the root). -/
theorem holeFinish {d : List EventEntry} {pos : Nat} {elem : EventEntry}
    (hlen : pos < d.length) (hA : holeInvA d pos) (hB : holeInvB d pos elem)
    (hb : 0 < pos → ele elem (lget d (parentIdx pos))) :
    heapInv (d.set pos elem) := by
  intro i hi hilen
  rw [List.length_set] at hilen
  by_cases hip : i = pos
  · subst hip
    rw [lget_set_self _ hlen, lget_set_ne _ (Ne.symm (Nat.ne_of_lt (parentIdx_lt hi)))]
    exact hb hi
  · rw [lget_set_ne _ (fun hc => hip hc.symm)]
    by_cases hpp : parentIdx i = pos
    · rw [hpp, lget_set_self _ hlen]
      exact (hB i hi hilen hpp).1
    · rw [lget_set_ne _ (fun hc => hpp hc.symm)]
      exact hA i hi hilen hip hpp

theorem holeInvA_step {d : List EventEntry} {pos : Nat} {elem : EventEntry}
    (h0 : 0 < pos) (hlen : pos < d.length)
    (hA : holeInvA d pos) (hB : holeInvB d pos elem) :
    holeInvA (d.set pos (lget d (parentIdx pos))) (parentIdx pos) := by
  intro i hi hilen hine hipar
  rw [List.length_set] at hilen
  by_cases hip : i = pos
  · subst hip
    exact absurd rfl hipar
  · rw [lget_set_ne _ (fun hc => hip hc.symm)]
    by_cases hpp : parentIdx i = pos
    · rw [hpp, lget_set_self _ hlen]
      exact (hB i hi hilen hpp).2 h0
    · rw [lget_set_ne _ (fun hc => hpp hc.symm)]
      exact hA i hi hilen hip hpp

theorem holeInvB_step {d : List EventEntry} {pos : Nat} {elem : EventEntry}
    (h0 : 0 < pos) (hlen : pos < d.length)
    (hA : holeInvA d pos) (hB : holeInvB d pos elem)
    (hnb : ¬ ele elem (lget d (parentIdx pos))) :
    holeInvB (d.set pos (lget d (parentIdx pos))) (parentIdx pos) elem := by
  intro i hi hilen hipar
  rw [List.length_set] at hilen
  have hppos : parentIdx pos < pos := parentIdx_lt h0
  have hpe : ele (lget d (parentIdx pos)) elem := ele_total hnb
  have hgrand : 0 < parentIdx pos →
      ele (lget d (parentIdx pos)) (lget d (parentIdx (parentIdx pos))) := by
    intro hq
    exact hA (parentIdx pos) hq (Nat.lt_trans hppos hlen)
      (Nat.ne_of_lt hppos) (Nat.ne_of_lt (Nat.lt_trans (parentIdx_lt hq) hppos))
  by_cases hip : i = pos
  · subst hip
    rw [lget_set_self _ hlen]
    refine ⟨hpe, fun hq => ?_⟩
    rw [lget_set_ne _ (Ne.symm (Nat.ne_of_lt (Nat.lt_trans (parentIdx_lt hq) hppos)))]
    exact hgrand hq
  · rw [lget_set_ne _ (fun hc => hip hc.symm)]
    have hie : ele (lget d i) (lget d (parentIdx pos)) := by
      have hx := hA i hi hilen hip (by rw [hipar]; exact Nat.ne_of_lt hppos)
      rw [hipar] at hx
      exact hx
    refine ⟨ele_trans hie hpe, fun hq => ?_⟩
    rw [lget_set_ne _ (Ne.symm (Nat.ne_of_lt (Nat.lt_trans (parentIdx_lt hq) hppos)))]
    exact ele_trans hie (hgrand hq)

/-- Full correctness of the `sift_up` loop plus the final write: from an
almost-heap with a hole, it restores the heap invariant. -/
theorem siftUpAux_spec (elem : EventEntry) :
    ∀ (fuel : Nat) (d : List EventEntry) (pos : Nat),
      pos ≤ fuel → pos < d.length →
      holeInvA d pos → holeInvB d pos elem →
      (siftUpAux elem 0 fuel d pos).1.length = d.length ∧
      (siftUpAux elem 0 fuel d pos).2 ≤ pos ∧
      (siftUpAux elem 0 fuel d pos).2 < d.length ∧
      heapInv ((siftUpAux elem 0 fuel d pos).1.set (siftUpAux elem 0 fuel d pos).2 elem) ∧
      (∀ x ∈ (siftUpAux elem 0 fuel d pos).1, x ∈ d) := by
  intro fuel
  induction fuel with
  | zero =>
    intro d pos hf hlen hA hB
    have hp0 : pos = 0 := Nat.le_zero.mp hf
    subst hp0
    have hred : siftUpAux elem 0 0 d 0 = (d, 0) := rfl
    rw [hred]
    exact ⟨rfl, Nat.le_refl 0, hlen,
      holeFinish hlen hA hB (fun hc => absurd hc (Nat.lt_irrefl 0)), fun x hx => hx⟩
  | succ fuel ih =>
    intro d pos hf hlen hA hB
    by_cases h0 : 0 < pos
    · have hstep : siftUpAux elem 0 (fuel + 1) d pos =
          if ele elem (lget d (parentIdx pos)) then (d, pos)
          else siftUpAux elem 0 fuel (d.set pos (lget d (parentIdx pos))) (parentIdx pos) := by
        simp only [siftUpAux]
        rw [if_pos h0]
      by_cases hb : ele elem (lget d (parentIdx pos))
      · rw [hstep, if_pos hb]
        exact ⟨rfl, Nat.le_refl pos, hlen,
          holeFinish hlen hA hB (fun _ => hb), fun x hx => hx⟩
      · rw [hstep, if_neg hb]
        have hplt : parentIdx pos < pos := parentIdx_lt h0
        have hlen' : parentIdx pos < (d.set pos (lget d (parentIdx pos))).length := by
          rw [List.length_set]
          exact Nat.lt_trans hplt hlen
        have hrec := ih (d.set pos (lget d (parentIdx pos))) (parentIdx pos)
          (by omega) hlen'
          (holeInvA_step h0 hlen hA hB) (holeInvB_step h0 hlen hA hB hb)
        rw [List.length_set] at hrec
        refine ⟨hrec.1, Nat.le_trans hrec.2.1 (Nat.le_of_lt hplt),
          hrec.2.2.1, hrec.2.2.2.1, fun x hx => ?_⟩
        cases mem_of_mem_set (hrec.2.2.2.2 x hx) with
        | inl hm => exact hm
        | inr he =>
          rw [he]
          exact lget_mem (Nat.lt_trans hplt hlen)
    · have hp0 : pos = 0 := Nat.eq_zero_of_not_pos h0
      subst hp0
      have hred : siftUpAux elem 0 (fuel + 1) d 0 = (d, 0) := by
        simp only [siftUpAux]
        rw [if_neg h0]
      rw [hred]
      exact ⟨rfl, Nat.le_refl 0, hlen,
        holeFinish hlen hA hB (fun hc => absurd hc (Nat.lt_irrefl 0)), fun x hx => hx⟩

theorem siftUpAux_subset (elem : EventEntry) (start : Nat) :
    ∀ (fuel : Nat) (d : List EventEntry) (pos : Nat),
      pos < d.length → ∀ x ∈ (siftUpAux elem start fuel d pos).1, x ∈ d := by
  intro fuel
  induction fuel with
  | zero => intro d pos _ x hx; exact hx
  | succ fuel ih =>
    intro d pos hlen x hx
    by_cases h0 : start < pos
    · by_cases hb : ele elem (lget d (parentIdx pos))
      · have hred : siftUpAux elem start (fuel + 1) d pos = (d, pos) := by
          simp only [siftUpAux]
          rw [if_pos h0, if_pos hb]
        rw [hred] at hx
        exact hx
      · have hred : siftUpAux elem start (fuel + 1) d pos =
            siftUpAux elem start fuel (d.set pos (lget d (parentIdx pos))) (parentIdx pos) := by
          simp only [siftUpAux]
          rw [if_pos h0, if_neg hb]
        rw [hred] at hx
        have hplt : parentIdx pos ≤ pos := parentIdx_le pos
        have hx2 := ih (d.set pos (lget d (parentIdx pos))) (parentIdx pos)
          (by rw [List.length_set]; omega) x hx
        cases mem_of_mem_set hx2 with
        | inl hm => exact hm
        | inr he =>
          rw [he]
          exact lget_mem (by omega)
    · have hred : siftUpAux elem start (fuel + 1) d pos = (d, pos) := by
        simp only [siftUpAux]
        rw [if_neg h0]
      rw [hred] at hx
      exact hx

theorem holeInvB_of_no_children {d : List EventEntry} {pos : Nat} (elem : EventEntry)
    (h : d.length ≤ 2 * pos + 1) : holeInvB d pos elem := by
  intro i hi hilen hipar
  exact absurd (child_ge hi hipar) (by omega)

theorem holeInvDown_step {d : List EventEntry} {pos child : Nat}
    (hch : child = 2 * pos + 1) (hc2 : child + 2 ≤ d.length)
    (hA : holeInvA d pos) (hC : holeInvC d pos) :
    holeInvA (d.set pos (lget d (childSel d child))) (childSel d child) ∧
    holeInvC (d.set pos (lget d (childSel d child))) (childSel d child) := by
  have hcge : child ≤ childSel d child := by
    unfold childSel
    split
    · omega
    · omega
  have hcle : childSel d child ≤ child + 1 := by
    unfold childSel
    split
    · omega
    · omega
  have hposlt : pos < childSel d child := by omega
  have hclt : childSel d child < d.length := by omega
  have hposlen : pos < d.length := by omega
  have hparc : parentIdx (childSel d child) = pos := by
    unfold childSel
    split
    · rw [hch]
      exact parentIdx_child_right pos
    · rw [hch]
      exact parentIdx_child_left pos
  have hc0 : 0 < childSel d child := by omega
  have hsib : ∀ i, 0 < i → i < d.length → parentIdx i = pos → i ≠ childSel d child →
      ele (lget d i) (lget d (childSel d child)) := by
    intro i hi hilen hpi hine
    have hcase := child_cases hi hpi
    unfold childSel at hine ⊢
    by_cases hcc : ele (lget d child) (lget d (child + 1))
    · rw [if_pos hcc] at hine ⊢
      have hieq : i = child := by omega
      rw [hieq]
      exact hcc
    · rw [if_neg hcc] at hine ⊢
      have hieq : i = child + 1 := by omega
      rw [hieq]
      exact ele_total hcc
  constructor
  · intro i hi hilen hine hipar
    rw [List.length_set] at hilen
    by_cases hip : i = pos
    · subst hip
      rw [lget_set_self _ hposlen,
        lget_set_ne _ (Ne.symm (Nat.ne_of_lt (parentIdx_lt hi)))]
      exact hC (childSel d child) hc0 hclt hparc hi
    · rw [lget_set_ne _ (fun hc => hip hc.symm)]
      by_cases hpp : parentIdx i = pos
      · rw [hpp, lget_set_self _ hposlen]
        exact hsib i hi hilen hpp hine
      · rw [lget_set_ne _ (fun hc => hpp hc.symm)]
        exact hA i hi hilen hip hpp
  · intro i hi hilen hipar _
    rw [List.length_set] at hilen
    have higt : 2 * childSel d child + 1 ≤ i := child_ge hi hipar
    have hipos : i ≠ pos := by omega
    rw [hparc, lget_set_self _ hposlen, lget_set_ne _ (fun hc => hipos hc.symm)]
    have hx := hA i hi hilen hipos (by omega)
    rw [hipar] at hx
    exact hx

/-- Correctness of the descent loop of `sift_down_to_bottom`: it ends with a
childless hole and the almost-heap property away from the hole. -/
theorem siftDownAux_spec (endd : Nat) :
    ∀ (fuel : Nat) (d : List EventEntry) (pos child : Nat),
      d.length = endd → endd ≤ child + fuel → pos < endd → child = 2 * pos + 1 →
      holeInvA d pos → holeInvC d pos →
      (siftDownAux endd fuel d pos child).1.length = endd ∧
      (siftDownAux endd fuel d pos child).2 < endd ∧
      endd ≤ 2 * (siftDownAux endd fuel d pos child).2 + 1 ∧
      holeInvA (siftDownAux endd fuel d pos child).1 (siftDownAux endd fuel d pos child).2 ∧
      (∀ x ∈ (siftDownAux endd fuel d pos child).1, x ∈ d) := by
  intro fuel
  induction fuel with
  | zero =>
    intro d pos child hd hfc hpos hch hA hC
    have hred : siftDownAux endd 0 d pos child = (d, pos) := by
      simp only [siftDownAux]
      rw [if_neg (by omega)]
    rw [hred]
    exact ⟨hd, hpos, by omega, hA, fun x hx => hx⟩
  | succ fuel ih =>
    intro d pos child hd hfc hpos hch hA hC
    by_cases hg : child + 2 ≤ endd
    · have hred : siftDownAux endd (fuel + 1) d pos child =
          siftDownAux endd fuel (d.set pos (lget d (childSel d child)))
            (childSel d child) (2 * childSel d child + 1) := by
        simp only [siftDownAux]
        rw [if_pos hg]
      rw [hred]
      have hcge : child ≤ childSel d child := by
        unfold childSel
        split
        · omega
        · omega
      have hcle : childSel d child ≤ child + 1 := by
        unfold childSel
        split
        · omega
        · omega
      have hc2 : child + 2 ≤ d.length := by omega
      have hstep := holeInvDown_step hch hc2 hA hC
      have hrec := ih (d.set pos (lget d (childSel d child))) (childSel d child)
        (2 * childSel d child + 1) (by rw [List.length_set]; exact hd)
        (by omega) (by omega) rfl hstep.1 hstep.2
      refine ⟨hrec.1, hrec.2.1, hrec.2.2.1, hrec.2.2.2.1, fun x hx => ?_⟩
      cases mem_of_mem_set (hrec.2.2.2.2 x hx) with
      | inl hm => exact hm
      | inr he =>
        rw [he]
        exact lget_mem (by omega)
    · by_cases he : child + 1 = endd
      · have hred : siftDownAux endd (fuel + 1) d pos child =
            (d.set pos (lget d child), child) := by
          simp only [siftDownAux]
          rw [if_neg hg, if_pos he]
        rw [hred]
        have hchlt : child < d.length := by omega
        have hposlen : pos < d.length := by omega
        refine ⟨by rw [List.length_set]; exact hd, by omega, by omega, ?_,
          fun x hx => ?_⟩
        · intro i hi hilen hine hipar
          rw [List.length_set] at hilen
          by_cases hip : i = pos
          · subst hip
            rw [lget_set_self _ hposlen,
              lget_set_ne _ (Ne.symm (Nat.ne_of_lt (parentIdx_lt hi)))]
            refine hC child (by omega) hchlt ?_ hi
            rw [hch]
            exact parentIdx_child_left _
          · rw [lget_set_ne _ (fun hc => hip hc.symm)]
            by_cases hpp : parentIdx i = pos
            · have hcase := child_cases hi hpp
              rw [hd] at hilen
              exact absurd hilen (by omega)
            · rw [lget_set_ne _ (fun hc => hpp hc.symm)]
              exact hA i hi hilen hip hpp
        · cases mem_of_mem_set hx with
          | inl hm => exact hm
          | inr hee =>
            rw [hee]
            exact lget_mem hchlt
      · have hred : siftDownAux endd (fuel + 1) d pos child = (d, pos) := by
          simp only [siftDownAux]
          rw [if_neg hg, if_neg he]
        rw [hred]
        exact ⟨hd, hpos, by omega, hA, fun x hx => hx⟩

/-- `sift_down_to_bottom` from the root of an almost-heap with a root hole
restores the heap invariant, preserves length, and introduces no new elements. -/
theorem siftDownToBottom_spec {d : List EventEntry} (hne : 0 < d.length)
    (hA : holeInvA d 0) :
    heapInv (siftDownToBottom d 0) ∧ (siftDownToBottom d 0).length = d.length ∧
    (∀ x ∈ siftDownToBottom d 0, x ∈ d) := by
  have hC : holeInvC d 0 := fun i hi hilen hipar hq => absurd hq (Nat.lt_irrefl 0)
  have h1 := siftDownAux_spec d.length d.length d 0 (2 * 0 + 1) rfl (by omega) hne rfl hA hC
  have hB : holeInvB (siftDownAux d.length d.length d 0 (2 * 0 + 1)).1
      (siftDownAux d.length d.length d 0 (2 * 0 + 1)).2 (lget d 0) :=
    holeInvB_of_no_children (lget d 0) (by rw [h1.1]; exact h1.2.2.1)
  have h2 := siftUpAux_spec (lget d 0) (siftDownAux d.length d.length d 0 (2 * 0 + 1)).2
    (siftDownAux d.length d.length d 0 (2 * 0 + 1)).1
    (siftDownAux d.length d.length d 0 (2 * 0 + 1)).2
    (Nat.le_refl _) (by rw [h1.1]; exact h1.2.1) h1.2.2.2.1 hB
  unfold siftDownToBottom placeHole
  refine ⟨h2.2.2.2.1, ?_, fun x hx => ?_⟩
  · rw [List.length_set, h2.1, h1.1]
  · cases mem_of_mem_set hx with
    | inl hm => exact h1.2.2.2.2 x (h2.2.2.2.2 x hm)
    | inr he =>
      rw [he]
      exact lget_mem hne

/-- `push` preserves the heap invariant. -/
theorem heapPush_heapInv {d : List EventEntry} {item : EventEntry}
    (h : heapInv d) : heapInv (heapPush d item) := by
  have hlen : d.length < (d ++ [item]).length := by
    simp only [List.length_append, List.length_cons, List.length_nil]
    omega
  have hA : holeInvA (d ++ [item]) d.length := by
    intro i hi hilen hine hipar
    simp only [List.length_append, List.length_cons, List.length_nil] at hilen
    have hilt : i < d.length := by omega
    rw [lget_append_left hilt, lget_append_left (Nat.lt_of_le_of_lt (parentIdx_le i) hilt)]
    exact h i hi hilt
  have hB : holeInvB (d ++ [item]) d.length (lget (d ++ [item]) d.length) := by
    apply holeInvB_of_no_children
    simp only [List.length_append, List.length_cons, List.length_nil]
    omega
  have hs := siftUpAux_spec (lget (d ++ [item]) d.length) d.length (d ++ [item]) d.length
    (Nat.le_refl _) hlen hA hB
  unfold heapPush siftUp placeHole
  exact hs.2.2.2.1

/-- Elements of `push d item` come from `d` or are `item`. -/
theorem heapPush_subset {d : List EventEntry} {item x : EventEntry}
    (h : x ∈ heapPush d item) : x ∈ d ∨ x = item := by
  unfold heapPush siftUp placeHole at h
  have hlen : d.length < (d ++ [item]).length := by
    simp only [List.length_append, List.length_cons, List.length_nil]
    omega
  cases mem_of_mem_set h with
  | inl hm =>
    have hx := siftUpAux_subset (lget (d ++ [item]) d.length) 0 d.length
      (d ++ [item]) d.length hlen x hm
    cases List.mem_append.mp hx with
    | inl h1 => exact Or.inl h1
    | inr h2 =>
      cases h2 with
      | head => exact Or.inr rfl
      | tail _ hc => cases hc
  | inr he =>
    rw [lget_append_last] at he
    exact Or.inr he

theorem heapPop_eq_none_iff (d : List EventEntry) : heapPop d = none ↔ d = [] := by
  cases d with
  | nil => simp [heapPop]
  | cons hd tl =>
    constructor
    · intro h
      unfold heapPop at h
      by_cases hb : (hd :: tl).dropLast.length = 0
      · rw [if_pos hb] at h
        cases h
      · rw [if_neg hb] at h
        cases h
    · intro h
      cases h

/-- Specification of `pop` on a heap: it returns the root (a minimal-time
element), the remainder satisfies the heap invariant, is one element shorter,
and all its elements come from the original heap. -/
theorem heapPop_spec {d : List EventEntry} {e : EventEntry} {r : List EventEntry}
    (hinv : heapInv d) (h : heapPop d = some (e, r)) :
    e = lget d 0 ∧ heapInv r ∧ (∀ x ∈ r, x ∈ d) ∧ r.length + 1 = d.length := by
  cases d with
  | nil => cases h
  | cons hd tl =>
    unfold heapPop at h
    by_cases hb : (hd :: tl).dropLast.length = 0
    · rw [if_pos hb] at h
      rw [List.length_dropLast] at hb
      simp only [List.length_cons] at hb
      have htl : tl = [] := List.eq_nil_of_length_eq_zero (by omega)
      subst htl
      cases h
      refine ⟨rfl, ?_, ?_, rfl⟩
      · intro i hi hilen
        exact absurd hilen (Nat.not_lt_zero i)
      · intro x hx
        cases hx
    · rw [if_neg hb] at h
      have hlen2 : 2 ≤ (hd :: tl).length := by
        rw [List.length_dropLast] at hb
        omega
      have he : e = lget (hd :: tl).dropLast 0 := by cases h; rfl
      have hr : r = siftDownToBottom
          ((hd :: tl).dropLast.set 0 (lget (hd :: tl) ((hd :: tl).length - 1))) 0 := by
        cases h; rfl
      have hdllen : (hd :: tl).dropLast.length = (hd :: tl).length - 1 :=
        List.length_dropLast (hd :: tl)
      have hdpos : 0 < ((hd :: tl).dropLast.set 0
          (lget (hd :: tl) ((hd :: tl).length - 1))).length := by
        rw [List.length_set, hdllen]
        omega
      have hA : holeInvA ((hd :: tl).dropLast.set 0
          (lget (hd :: tl) ((hd :: tl).length - 1))) 0 := by
        intro i hi hilen hine hipar
        rw [List.length_set, hdllen] at hilen
        rw [lget_set_ne _ (fun hc => hine hc.symm),
          lget_set_ne _ (fun hc => hipar hc.symm)]
        rw [lget_dropLast (by omega),
          lget_dropLast (by have := parentIdx_le i; omega)]
        exact hinv i hi (by omega)
      have hs := siftDownToBottom_spec hdpos hA
      refine ⟨?_, ?_, ?_, ?_⟩
      · rw [he, lget_dropLast (by omega)]
      · rw [hr]
        exact hs.1
      · intro x hx
        rw [hr] at hx
        cases mem_of_mem_set (hs.2.2 x hx) with
        | inl hm => exact mem_dropLast hm
        | inr hee =>
          rw [hee]
          exact lget_mem (by omega)
      · rw [hr, hs.2.1, List.length_set, hdllen]
        omega

/-- In a heap, the root has minimal time. -/
theorem heapInv_root_le {d : List EventEntry} (h : heapInv d) :
    ∀ x ∈ d, (lget d 0).time ≤ x.time := by
  have hidx : ∀ i, i < d.length → (lget d 0).time ≤ (lget d i).time := by
    intro i
    induction i using Nat.strong_induction_on with
    | _ i ih =>
      intro hilen
      cases Nat.eq_zero_or_pos i with
      | inl h0 =>
        rw [h0]
      | inr hpos =>
        have h1 := h i hpos hilen
        have h2 := ih (parentIdx i) (parentIdx_lt hpos)
          (Nat.lt_trans (parentIdx_lt hpos) hilen)
        exact Nat.le_trans h2 h1
  intro x hx
  have hm : ∃ i, i < d.length ∧ lget d i = x := by
    clear hidx h
    induction d with
    | nil => cases hx
    | cons y ys ih =>
      cases hx with
      | head => exact ⟨0, by simp, rfl⟩
      | tail _ hx' =>
        obtain ⟨i, hi, hg⟩ := ih hx'
        exact ⟨i + 1, by simp only [List.length_cons]; omega, hg⟩
  obtain ⟨i, hi, hg⟩ := hm
  rw [← hg]
  exact hidx i hi

/-- Scheduler from `scheduler.rs`: a `BinaryHeap<EventEntry>` (here: its
backing vector) together with the shared clock cell. -/
structure Scheduler where
  events : List EventEntry
  clock : Nat
deriving Repr, DecidableEq

/-- `Scheduler::default()`: empty heap, clock at zero. -/
def Scheduler.init : Scheduler := ⟨[], 0⟩

/-- `Scheduler::time`: read the clock. -/
def Scheduler.time (s : Scheduler) : Nat := s.clock

/-- `Scheduler::schedule(time, component)`: push an entry at `self.time() + time`. -/
def Scheduler.schedule (s : Scheduler) (time : Nat) (component : Key) : Scheduler :=
  { s with events := heapPush s.events ⟨s.time + time, component⟩ }

/-- `Scheduler::schedule_now(component)` = `schedule(ZERO, component)`. -/
def Scheduler.schedule_now (s : Scheduler) (component : Key) : Scheduler :=
  s.schedule 0 component

/-- `Scheduler::pop`: pop the heap; on `Some(event)` the clock is replaced by
the event's time, on `None` the state is unchanged. -/
def Scheduler.pop (s : Scheduler) : Option EventEntry × Scheduler :=
  match heapPop s.events with
  | none => (none, s)
  | some (e, rest) => (some e, ⟨rest, e.time⟩)

/-- Invariant of every scheduler reachable through the public API: the backing
vector is a heap and no pending entry lies before the clock. -/
def SchedInv (s : Scheduler) : Prop :=
  heapInv s.events ∧ ∀ e ∈ s.events, s.clock ≤ e.time

theorem SchedInv_init : SchedInv Scheduler.init :=
  ⟨fun i _ hilen => absurd hilen (Nat.not_lt_zero i),
   fun e he => absurd he (List.not_mem_nil e)⟩

theorem SchedInv_schedule {s : Scheduler} {t : Nat} {k : Key}
    (h : SchedInv s) : SchedInv (s.schedule t k) := by
  constructor
  · exact heapPush_heapInv h.1
  · intro e he
    simp only [Scheduler.schedule, Scheduler.time] at he ⊢
    cases heapPush_subset he with
    | inl hm => exact h.2 e hm
    | inr hee =>
      rw [hee]
      exact Nat.le_add_right _ _

theorem Scheduler_pop_none_iff (s : Scheduler) :
    (s.pop).1 = none ↔ s.events = [] := by
  unfold Scheduler.pop
  cases he : heapPop s.events with
  | none =>
    exact iff_of_true rfl ((heapPop_eq_none_iff s.events).mp he)
  | some pr =>
    obtain ⟨e, rest⟩ := pr
    refine iff_of_false (fun hc => by cases hc) (fun hc => ?_)
    rw [hc] at he
    cases he

theorem Scheduler_pop_none_fix {s : Scheduler} (h : (s.pop).1 = none) :
    (s.pop).2 = s := by
  unfold Scheduler.pop at h ⊢
  cases he : heapPop s.events with
  | none => rfl
  | some pr =>
    obtain ⟨e, rest⟩ := pr
    rw [he] at h
    cases h

/-- Behaviour of `Scheduler::pop` on an invariant-satisfying scheduler that
returns an event: it is a pending entry of minimal time, not earlier than the
clock, and the clock advances to exactly its time. -/
theorem Scheduler_pop_some {s : Scheduler} {e : EventEntry} {s' : Scheduler}
    (hinv : SchedInv s) (h : s.pop = (some e, s')) :
    e ∈ s.events ∧ (∀ x ∈ s.events, e.time ≤ x.time) ∧ s.clock ≤ e.time ∧
    s'.clock = e.time ∧ SchedInv s' ∧ (∀ x ∈ s'.events, x ∈ s.events) := by
  unfold Scheduler.pop at h
  cases hp : heapPop s.events with
  | none =>
    rw [hp] at h
    cases h
  | some pr =>
    obtain ⟨e0, rest⟩ := pr
    rw [hp] at h
    injection h with h1 h2
    injection h1 with h1
    have he : e = e0 := h1.symm
    have hs2 : s' = ⟨rest, e0.time⟩ := h2.symm
    rw [he, hs2]
    have hps := heapPop_spec hinv.1 hp
    have hlen : 0 < s.events.length := by
      have hx := hps.2.2.2
      omega
    have hmem : e0 ∈ s.events := by
      rw [hps.1]
      exact lget_mem hlen
    have hmin : ∀ x ∈ s.events, e0.time ≤ x.time := by
      intro x hx
      rw [hps.1]
      exact heapInv_root_le hinv.1 x hx
    refine ⟨hmem, hmin, hinv.2 e0 hmem, rfl, ⟨hps.2.1, ?_⟩, fun x hx => hps.2.2.1 x hx⟩
    intro x hx
    exact hmin x (hps.2.2.1 x hx)

/-- Operations of the public Scheduler API, used to quantify over every
sequence of `schedule` / `pop` calls. -/
inductive SOp where
  | sched (delay : Nat) (k : Key)
  | pop
deriving Repr, DecidableEq

/-- One API call; a `pop` also reports the clock value observed right after it. -/
def schedStep : Scheduler → SOp → Scheduler × Option Nat
  | s, .sched d k => (s.schedule d k, none)
  | s, .pop => ((s.pop).2, some (s.pop).2.clock)

/-- Run a sequence of API calls from a state, collecting the clock values
observed at the `pop` calls. -/
def schedRun : Scheduler → List SOp → Scheduler × List Nat
  | s, [] => (s, [])
  | s, op :: ops =>
    ((schedRun (schedStep s op).1 ops).1,
     (schedStep s op).2.toList ++ (schedRun (schedStep s op).1 ops).2)

theorem schedStep_spec {s : Scheduler} (op : SOp) (h : SchedInv s) :
    SchedInv (schedStep s op).1 ∧ s.clock ≤ (schedStep s op).1.clock ∧
    (∀ x ∈ (schedStep s op).2.toList, x = (schedStep s op).1.clock) := by
  cases op with
  | sched d k =>
    exact ⟨SchedInv_schedule h, Nat.le_refl _, fun x hx => by cases hx⟩
  | pop =>
    cases hp : s.pop with
    | mk o s' =>
      cases o with
      | none =>
        have hfix : s' = s := by
          have := Scheduler_pop_none_fix (s := s) (by rw [hp])
          rw [hp] at this
          exact this
        subst hfix
        simp only [schedStep, hp]
        refine ⟨h, Nat.le_refl _, fun x hx => ?_⟩
        cases hx with
        | head => rfl
        | tail _ hc => cases hc
      | some e =>
        have hs := Scheduler_pop_some h hp
        simp only [schedStep, hp]
        refine ⟨hs.2.2.2.2.1, ?_, fun x hx => ?_⟩
        · rw [hs.2.2.2.1]
          exact hs.2.2.1
        · cases hx with
          | head => rfl
          | tail _ hc => cases hc

/-- Core of the monotone-clock property: along any run, the final state keeps
the invariant, all observed clock values are at least the starting clock, and
the observation list is pairwise non-decreasing. -/
theorem schedRun_spec :
    ∀ (ops : List SOp) (s : Scheduler), SchedInv s →
      SchedInv (schedRun s ops).1 ∧
      s.clock ≤ (schedRun s ops).1.clock ∧
      (∀ x ∈ (schedRun s ops).2, s.clock ≤ x) ∧
      List.Pairwise (fun a b => a ≤ b) (schedRun s ops).2 := by
  intro ops
  induction ops with
  | nil =>
    intro s h
    exact ⟨h, Nat.le_refl _, fun x hx => absurd hx (List.not_mem_nil x), List.Pairwise.nil⟩
  | cons op ops ih =>
    intro s h
    have hstep := schedStep_spec op h
    have hrec := ih (schedStep s op).1 hstep.1
    simp only [schedRun]
    refine ⟨hrec.1, Nat.le_trans hstep.2.1 hrec.2.1, ?_, ?_⟩
    · intro x hx
      cases List.mem_append.mp hx with
      | inl hm =>
        rw [hstep.2.2 x hm]
        exact hstep.2.1
      | inr hm => exact Nat.le_trans hstep.2.1 (hrec.2.2.1 x hm)
    · rw [List.pairwise_append]
      refine ⟨?_, hrec.2.2.2, ?_⟩
      · cases hob : (schedStep s op).2 with
        | none => exact List.Pairwise.nil
        | some a =>
          exact List.Pairwise.cons (fun b hb => absurd hb (List.not_mem_nil b))
            List.Pairwise.nil
      · intro a ha b hb
        rw [hstep.2.2 a ha]
        exact hrec.2.2.1 b hb

/-- ComponentState from `container.rs`. -/
inductive ComponentState where
  | Passivated
  | Active
deriving Repr, DecidableEq

/-- Action as consumed by the driver in `simulation.rs`:
`Hold(Duration)`, `Passivate`, `ActivateOne(Key)`, `ActivateMany(Vec<Key>)`. -/
inductive Action where
  | Hold (duration : Nat)
  | Passivate
  | ActivateOne (key : Key)
  | ActivateMany (keys : List Key)
deriving Repr, DecidableEq

/-- A process (the user-supplied generator): modelled by the sequence of
actions it will yield before returning, per the process contract of the
engine (resume values carry no information for these processes). -/
abbrev Process := List Action

/-- `std::ops::GeneratorState<Action, ()>`. -/
inductive GenState where
  | Yielded (action : Action)
  | Complete
deriving Repr, DecidableEq

/-- The panics the driver and container can raise, with the offending key id. -/
inductive PanicKind where
  | missingComponent (id : Nat)
  | holdByPassivated (id : Nat)
  | passivateOnPassivated (id : Nat)
  | passivatedEmittedActivate (id : Nat)
  | activateAlreadyActive (id : Nat)
deriving Repr, DecidableEq

instance {e a : Type} [DecidableEq e] [DecidableEq a] : DecidableEq (Except e a) := fun x y =>
  match x, y with
  | .error e1, .error e2 =>
    if h : e1 = e2 then isTrue (by rw [h]) else isFalse (fun hc => h (Except.error.inj hc))
  | .error _, .ok _ => isFalse (fun hc => Except.noConfusion hc)
  | .ok _, .error _ => isFalse (fun hc => Except.noConfusion hc)
  | .ok a1, .ok a2 =>
    if h : a1 = a2 then isTrue (by rw [h]) else isFalse (fun hc => h (Except.ok.inj hc))

/-- Container from `container.rs`: `inner: Vec<Option<(GenBoxed<R>, ComponentState)>>`. -/
structure Container where
  inner : List (Option (Process × ComponentState))
deriving Repr, DecidableEq

/-- `Container::default()`. -/
def Container.empty : Container := ⟨[]⟩

/-- `Container::add_generator`: the fresh key is the current length; the slot
is appended holding the process in the `Active` state. -/
def Container.add_generator (c : Container) (gen : Process) : Container × Key :=
  (⟨c.inner ++ [some (gen, ComponentState.Active)]⟩, ⟨c.inner.length⟩)

/-- `Container::remove`: if the index is in range, `take()` the slot (leaving
`None` behind) and return its previous content; otherwise return `None`. -/
def Container.remove (c : Container) (key : Key) :
    Option (Process × ComponentState) × Container :=
  match c.inner.get? key.id with
  | some slot => (slot, ⟨c.inner.set key.id none⟩)
  | none => (none, c)

/-- `Container::len`: the length of the backing vector (tombstones included). -/
def Container.len (c : Container) : Nat := c.inner.length

/-- `Container::is_empty`. -/
def Container.is_empty (c : Container) : Bool := c.inner.isEmpty

/-- `Container::get_state`: `None` for an out-of-range or vacated slot. -/
def Container.get_state (c : Container) (key : Key) : Option ComponentState :=
  match c.inner.get? key.id with
  | some (some (_, st)) => some st
  | _ => none

/-- Writing through `Container::get_state_mut`; the driver only calls it after
a successful lookup, so the fall-through branch is never taken there. -/
def Container.set_state (c : Container) (key : Key) (st : ComponentState) : Container :=
  match c.inner.get? key.id with
  | some (some (p, _)) => ⟨c.inner.set key.id (some (p, st))⟩
  | _ => c

/-- `Container::step_with`: resume the process at `key`; a missing or vacated
slot panics ("components shouldn't be removed from the container").  A process
with remaining actions yields the next one; an exhausted process returns
`Complete` (the driver then removes it, so it is never resumed again). -/
def Container.step_with (c : Container) (key : Key) :
    Except PanicKind (GenState × Container) :=
  match c.inner.get? key.id with
  | some (some (a :: rest, st)) =>
      .ok (.Yielded a, ⟨c.inner.set key.id (some (rest, st))⟩)
  | some (some ([], _)) => .ok (.Complete, c)
  | _ => .error (.missingComponent key.id)

/-- Simulation from `simulation.rs`: one Scheduler and one Container. -/
structure Simulation where
  scheduler : Scheduler
  components : Container
deriving Repr, DecidableEq

/-- `Simulation::default()`. -/
def Simulation.init : Simulation := ⟨Scheduler.init, Container.empty⟩

/-- `Simulation::add_generator`: delegates to the container. -/
def Simulation.add_generator (s : Simulation) (gen : Process) : Simulation × Key :=
  (⟨s.scheduler, (s.components.add_generator gen).1⟩, (s.components.add_generator gen).2)

/-- `Simulation::schedule`: delegates to the scheduler. -/
def Simulation.schedule (s : Simulation) (time : Nat) (key : Key) : Simulation :=
  ⟨s.scheduler.schedule time key, s.components⟩

/-- `Simulation::schedule_now`: delegates to the scheduler. -/
def Simulation.schedule_now (s : Simulation) (key : Key) : Simulation :=
  ⟨s.scheduler.schedule_now key, s.components⟩

/-- `Simulation::time`. -/
def Simulation.time (s : Simulation) : Nat := s.scheduler.time

/-- `Simulation::get_component_state`. -/
def Simulation.get_component_state (s : Simulation) (key : Key) :
    Option (Key × ComponentState) :=
  (s.components.get_state key).map (fun st => (key, st))

/-- The `for other_key in other_keys` loop of the `ActivateMany` branch:
look up each peer (unwrap panics on a missing one), promote `Passivated` to
`Active` (an already-`Active` peer is a fatal protocol violation), then
`schedule_now` the peer.  A panic carries the state at the panic point. -/
def activateLoop (sch : Scheduler) (c : Container) :
    List Key → Except (PanicKind × Simulation) (Scheduler × Container)
  | [] => .ok (sch, c)
  | other :: rest =>
    match c.get_state other with
    | none => .error (.missingComponent other.id, ⟨sch, c⟩)
    | some .Active => .error (.activateAlreadyActive other.id, ⟨sch, c⟩)
    | some .Passivated =>
        activateLoop (sch.schedule_now other) (c.set_state other .Active) rest

/-- `Simulation::step_with`, one driver iteration: pop the earliest event
(`None` means `Break`, reported here as `none`), resume that process, then
interpret the yielded action exactly as the `match` in `simulation.rs` does.
On `Advance` the popped entry is also reported (it is the resume record:
the process and the virtual time of the resume). -/
def Simulation.step_with (s : Simulation) :
    Except (PanicKind × Simulation) (Option EventEntry × Simulation) :=
  match s.scheduler.pop with
  | (none, _) => .ok (none, s)
  | (some ev, sch1) =>
    match s.components.step_with ev.component with
    | .error pk => .error (pk, ⟨sch1, s.components⟩)
    | .ok (.Complete, c1) => .ok (some ev, ⟨sch1, (c1.remove ev.component).2⟩)
    | .ok (.Yielded a, c1) =>
      match c1.get_state ev.component with
      | none => .error (.missingComponent ev.component.id, ⟨sch1, c1⟩)
      | some st =>
        match a with
        | .Hold d =>
          match st with
          | .Passivated => .error (.holdByPassivated ev.component.id, ⟨sch1, c1⟩)
          | .Active => .ok (some ev, ⟨sch1.schedule d ev.component, c1⟩)
        | .Passivate =>
          match st with
          | .Active => .ok (some ev, ⟨sch1, c1.set_state ev.component .Passivated⟩)
          | .Passivated => .error (.passivateOnPassivated ev.component.id, ⟨sch1, c1⟩)
        | .ActivateOne other =>
          match st with
          | .Passivated => .error (.passivatedEmittedActivate ev.component.id, ⟨sch1, c1⟩)
          | .Active =>
            match c1.get_state other with
            | none =>
                .error (.missingComponent other.id, ⟨sch1.schedule_now ev.component, c1⟩)
            | some .Active =>
                .error (.activateAlreadyActive other.id, ⟨sch1.schedule_now ev.component, c1⟩)
            | some .Passivated =>
                .ok (some ev, ⟨(sch1.schedule_now ev.component).schedule_now other,
                  c1.set_state other .Active⟩)
        | .ActivateMany others =>
          match st with
          | .Passivated => .error (.passivatedEmittedActivate ev.component.id, ⟨sch1, c1⟩)
          | .Active =>
            match activateLoop (sch1.schedule_now ev.component) c1 others with
            | .error e => .error e
            | .ok (sch2, c2) => .ok (some ev, ⟨sch2, c2⟩)

/-- `Simulation::run_until_empty` with explicit fuel: iterate `step_with`,
collecting the resume records; the boolean reports whether the queue drained
(`Break` reached) within the allotted iterations. -/
def Simulation.run : Nat → Simulation →
    Except (PanicKind × Simulation) (List EventEntry × Simulation × Bool)
  | 0, s => .ok ([], s, false)
  | fuel + 1, s =>
    match s.step_with with
    | .error e => .error e
    | .ok (none, s') => .ok ([], s', true)
    | .ok (some ev, s') =>
      match Simulation.run fuel s' with
      | .error e => .error e
      | .ok (tr, s2, fin) => .ok (ev :: tr, s2, fin)

theorem gset_self {α : Type} {l : List α} {i : Nat} (a : α)
    (h : i < l.length) : (l.set i a).get? i = some a := by
  induction l generalizing i with
  | nil => cases h
  | cons x xs ih =>
    cases i with
    | zero => rfl
    | succ n => exact ih (Nat.lt_of_succ_lt_succ h)

theorem gset_ne {α : Type} {l : List α} {i j : Nat} (a : α)
    (h : i ≠ j) : (l.set i a).get? j = l.get? j := by
  induction l generalizing i j with
  | nil => rfl
  | cons x xs ih =>
    cases i with
    | zero =>
      cases j with
      | zero => exact absurd rfl h
      | succ m => rfl
    | succ n =>
      cases j with
      | zero => rfl
      | succ m => exact ih (fun hc => h (congrArg Nat.succ hc))

theorem gget_lt {α : Type} {l : List α} {i : Nat} {a : α}
    (h : l.get? i = some a) : i < l.length := by
  induction l generalizing i with
  | nil => cases h
  | cons x xs ih =>
    cases i with
    | zero => exact Nat.succ_pos _
    | succ n => exact Nat.succ_lt_succ (ih h)

theorem gget_of_lt {α : Type} {l : List α} {i : Nat}
    (h : i < l.length) : ∃ a, l.get? i = some a := by
  induction l generalizing i with
  | nil => cases h
  | cons x xs ih =>
    cases i with
    | zero => exact ⟨x, rfl⟩
    | succ n => exact ih (Nat.lt_of_succ_lt_succ h)

theorem gappend_ne {α : Type} {l : List α} {x : α} {j : Nat}
    (h : j ≠ l.length) : (l ++ [x]).get? j = l.get? j := by
  induction l generalizing j with
  | nil =>
    cases j with
    | zero => exact absurd rfl h
    | succ m => rfl
  | cons y ys ih =>
    cases j with
    | zero => rfl
    | succ m =>
      exact ih (fun hc => h (by simp only [List.length_cons]; omega))

theorem gappend_self {α : Type} (l : List α) (x : α) :
    (l ++ [x]).get? l.length = some x := by
  induction l with
  | nil => rfl
  | cons y ys ih => exact ih

theorem gset_set {α : Type} (l : List α) (i : Nat) (a b : α) :
    (l.set i a).set i b = l.set i b := by
  induction l generalizing i with
  | nil => rfl
  | cons x xs ih =>
    cases i with
    | zero => rfl
    | succ n =>
      simp only [List.set]
      rw [ih]

/-- Operations of the public Container API relevant to key allocation:
registrations and removals, in program order. -/
inductive COp where
  | add (p : Process)
  | rem (i : Nat)

/-- Run a history of registrations/removals on a container. -/
def crun : Container → List COp → Container
  | c, [] => c
  | c, .add p :: ops => crun (c.add_generator p).1 ops
  | c, .rem i :: ops => crun (c.remove ⟨i⟩).2 ops

/-- The keys handed out by the registrations of a history, in order. -/
def addedKeys : Container → List COp → List Nat
  | _, [] => []
  | c, .add p :: ops => (c.add_generator p).2.id :: addedKeys (c.add_generator p).1 ops
  | c, .rem i :: ops => addedKeys (c.remove ⟨i⟩).2 ops

/-- Number of registrations in a history. -/
def countAdds : List COp → Nat
  | [] => 0
  | .add _ :: ops => countAdds ops + 1
  | .rem _ :: ops => countAdds ops

theorem remove_len (c : Container) (k : Key) : ((c.remove k).2).len = c.len := by
  unfold Container.remove
  cases h : c.inner.get? k.id with
  | none => rfl
  | some slot =>
    simp only [Container.len, List.length_set]

theorem crun_len : ∀ (ops : List COp) (c : Container),
    (crun c ops).len = c.len + countAdds ops := by
  intro ops
  induction ops with
  | nil => intro c; rfl
  | cons op ops ih =>
    intro c
    cases op with
    | add p =>
      simp only [crun, countAdds]
      rw [ih]
      simp only [Container.add_generator, Container.len, List.length_append,
        List.length_cons, List.length_nil]
      omega
    | rem i =>
      simp only [crun, countAdds]
      rw [ih, remove_len]

theorem addedKeys_range : ∀ (ops : List COp) (c : Container),
    addedKeys c ops = List.range' c.len (countAdds ops) := by
  intro ops
  induction ops with
  | nil => intro c; rfl
  | cons op ops ih =>
    intro c
    cases op with
    | add p =>
      simp only [addedKeys, countAdds]
      rw [ih]
      have hlen : ((c.add_generator p).1).len = c.len + 1 := by
        simp only [Container.add_generator, Container.len, List.length_append,
          List.length_cons, List.length_nil]
      rw [hlen]
      rfl
    | rem i =>
      simp only [addedKeys, countAdds]
      rw [ih, remove_len]

theorem crun_append : ∀ (ops ops' : List COp) (c : Container),
    crun c (ops ++ ops') = crun (crun c ops) ops' := by
  intro ops
  induction ops with
  | nil => intro ops' c; rfl
  | cons op ops ih =>
    intro ops' c
    cases op with
    | add p => exact ih ops' (c.add_generator p).1
    | rem i => exact ih ops' (c.remove ⟨i⟩).2

/-- A vacated slot stays vacated under every further registration or removal. -/
theorem crun_none : ∀ (ops : List COp) (c : Container) (i : Nat),
    c.inner.get? i = some none → (crun c ops).inner.get? i = some none := by
  intro ops
  induction ops with
  | nil => intro c i h; exact h
  | cons op ops ih =>
    intro c i h
    cases op with
    | add p =>
      apply ih
      simp only [Container.add_generator]
      rw [gappend_ne (Nat.ne_of_lt (gget_lt h))]
      exact h
    | rem j =>
      apply ih
      unfold Container.remove
      cases hj : c.inner.get? j with
      | none => exact h
      | some slot =>
        by_cases hij : j = i
        · subst hij
          exact gset_self none (gget_lt h)
        · rw [gset_ne _ hij]
          exact h

theorem get_state_of_none {c : Container} {i : Nat}
    (h : c.inner.get? i = some none) : c.get_state ⟨i⟩ = none := by
  unfold Container.get_state
  rw [h]

theorem remove_tombstone {c : Container} {i : Nat} (h : i < c.len) :
    ((c.remove ⟨i⟩).2).inner.get? i = some none := by
  unfold Container.remove
  obtain ⟨slot, hs⟩ := gget_of_lt (l := c.inner) h
  rw [hs]
  exact gset_self none h

theorem add_get_state (c : Container) (p : Process) {j : Nat} (h : j ≠ c.len) :
    ((c.add_generator p).1).get_state ⟨j⟩ = c.get_state ⟨j⟩ := by
  unfold Container.get_state Container.add_generator
  rw [gappend_ne h]

theorem remove_get_state (c : Container) (k : Key) {j : Nat} (h : j ≠ k.id) :
    ((c.remove k).2).get_state ⟨j⟩ = c.get_state ⟨j⟩ := by
  unfold Container.get_state Container.remove
  cases hk : c.inner.get? k.id with
  | none => rfl
  | some slot => rw [gset_ne _ (fun hc => h hc.symm)]

theorem step_with_yield {c : Container} {k : Key} {a : Action} {rest : Process}
    {st : ComponentState} (h : c.inner.get? k.id = some (some (a :: rest, st))) :
    c.step_with k = .ok (.Yielded a, ⟨c.inner.set k.id (some (rest, st))⟩) := by
  unfold Container.step_with
  rw [h]

theorem step_with_complete {c : Container} {k : Key} {st : ComponentState}
    (h : c.inner.get? k.id = some (some ([], st))) :
    c.step_with k = .ok (.Complete, c) := by
  unfold Container.step_with
  rw [h]

theorem get_state_eq {c : Container} {k : Key} {p : Process} {st : ComponentState}
    (h : c.inner.get? k.id = some (some (p, st))) : c.get_state k = some st := by
  unfold Container.get_state
  rw [h]

theorem set_state_eq {c : Container} {k : Key} {p : Process} {st st' : ComponentState}
    (h : c.inner.get? k.id = some (some (p, st))) :
    c.set_state k st' = ⟨c.inner.set k.id (some (p, st'))⟩ := by
  unfold Container.set_state
  rw [h]

theorem run_step_ok {fuel : Nat} {s s' : Simulation} {ev : EventEntry}
    (h : s.step_with = .ok (some ev, s')) :
    Simulation.run (fuel + 1) s =
      match Simulation.run fuel s' with
      | .error e => .error e
      | .ok (tr, s2, fin) => .ok (ev :: tr, s2, fin) := by
  have hu : Simulation.run (fuel + 1) s =
      match s.step_with with
      | .error e => .error e
      | .ok (none, s1) => .ok ([], s1, true)
      | .ok (some ev1, s1) =>
        match Simulation.run fuel s1 with
        | .error e => .error e
        | .ok (tr, s2, fin) => .ok (ev1 :: tr, s2, fin) := rfl
  rw [hu, h]

theorem run_step_break {fuel : Nat} {s s' : Simulation}
    (h : s.step_with = .ok (none, s')) :
    Simulation.run (fuel + 1) s = .ok ([], s', true) := by
  have hu : Simulation.run (fuel + 1) s =
      match s.step_with with
      | .error e => .error e
      | .ok (none, s1) => .ok ([], s1, true)
      | .ok (some ev1, s1) =>
        match Simulation.run fuel s1 with
        | .error e => .error e
        | .ok (tr, s2, fin) => .ok (ev1 :: tr, s2, fin) := rfl
  rw [hu, h]

/-- One driver iteration of a single-process simulation whose next (and only)
event resumes a process about to yield `Hold d`: the clock advances to the
event time and the process is rescheduled at `time + d`. -/
theorem hold_step (t c d : Nat) (rest : Process) :
    (⟨⟨[⟨t, ⟨0⟩⟩], c⟩, ⟨[some (Action.Hold d :: rest, .Active)]⟩⟩ : Simulation).step_with =
      .ok (some ⟨t, ⟨0⟩⟩, ⟨⟨[⟨t + d, ⟨0⟩⟩], t⟩, ⟨[some (rest, .Active)]⟩⟩) := rfl

/-- One driver iteration of a single-process simulation whose process has
exhausted its yields: the resume completes and the slot is vacated. -/
theorem complete_step (t c : Nat) (st : ComponentState) :
    (⟨⟨[⟨t, ⟨0⟩⟩], c⟩, ⟨[some ([], st)]⟩⟩ : Simulation).step_with =
      .ok (some ⟨t, ⟨0⟩⟩, ⟨⟨[], t⟩, ⟨[none]⟩⟩) := rfl

/-- A driver iteration on an empty queue is `Break` and changes nothing. -/
theorem break_step (t : Nat) (c : Container) :
    (⟨⟨[], t⟩, c⟩ : Simulation).step_with = .ok (none, ⟨⟨[], t⟩, c⟩) := rfl

/-- Expected resume times of a pure-`Hold` process first resumed at `t`:
`t`, then each previous time plus the next hold duration. -/
def holdTimes (t : Nat) : List Nat → List Nat
  | [] => [t]
  | d :: ds => t :: holdTimes (t + d) ds

/-- Driving a single pure-`Hold` process to completion: from one pending event
at time `t`, the resumes happen exactly at `holdTimes t ds` and the run ends
with the clock at `t` plus the total held duration and a vacated container. -/
theorem holdRun : ∀ (ds : List Nat) (t c : Nat),
    Simulation.run (ds.length + 2)
        ⟨⟨[⟨t, ⟨0⟩⟩], c⟩, ⟨[some (ds.map Action.Hold, .Active)]⟩⟩ =
      .ok ((holdTimes t ds).map (fun x => EventEntry.mk x ⟨0⟩),
        ⟨⟨[], t + ds.sum⟩, ⟨[none]⟩⟩, true) := by
  intro ds
  induction ds with
  | nil =>
    intro t c
    rfl
  | cons d ds ih =>
    intro t c
    simp only [List.map_cons]
    rw [show (d :: ds).length + 2 = (ds.length + 2) + 1 from rfl,
      run_step_ok (hold_step t c d (ds.map Action.Hold)), ih (t + d) t]
    simp only [holdTimes, List.map_cons, List.sum_cons]
    rw [Nat.add_assoc]

/-- Keys returned by up to `n` successive `Scheduler::pop` calls. -/
def popKeys : Nat → Scheduler → List Key
  | 0, _ => []
  | n + 1, s =>
    match s.pop with
    | (none, _) => []
    | (some e, s') => e.component :: popKeys n s'

/-- Four entries scheduled at delay 0 (equal times), keys 0,1,2,3 in insertion
order, on a fresh scheduler. -/
def fourEqual : Scheduler :=
  (((Scheduler.init.schedule 0 ⟨0⟩).schedule 0 ⟨1⟩).schedule 0 ⟨2⟩).schedule 0 ⟨3⟩

/-- S1 scenario: one process yielding `Hold(0)` three times then returning,
registered and scheduled now. -/
def c4reg : Simulation × Key :=
  Simulation.init.add_generator [Action.Hold 0, Action.Hold 0, Action.Hold 0]

def c4sim : Simulation := c4reg.1.schedule_now c4reg.2

/-- S3 scenario: one process yielding `Hold(5)` then `Hold(2)` then returning,
registered and scheduled now. -/
def c5reg : Simulation × Key :=
  Simulation.init.add_generator [Action.Hold 5, Action.Hold 2]

def c5sim : Simulation := c5reg.1.schedule_now c5reg.2

/-- A single pure-`Hold` process registered in a fresh simulation and first
scheduled at delay `t0` (so at absolute time `t0`, the clock starting at 0). -/
def holdSimOf (ds : List Nat) (t0 : Nat) : Simulation :=
  ((Simulation.init.add_generator (ds.map Action.Hold)).1).schedule t0
    (Simulation.init.add_generator (ds.map Action.Hold)).2

/-- S4-style scenario for P6: processes X=key 0 yielding
`ActivateMany [1, 2, 3]`, and peers 1, 2, 3 each yielding `Passivate`;
all four scheduled now (peers first, then X). -/
def c2r0 : Simulation × Key :=
  Simulation.init.add_generator [Action.ActivateMany [⟨1⟩, ⟨2⟩, ⟨3⟩]]

def c2r1 : Simulation × Key := c2r0.1.add_generator [Action.Passivate]

def c2r2 : Simulation × Key := c2r1.1.add_generator [Action.Passivate]

def c2r3 : Simulation × Key := c2r2.1.add_generator [Action.Passivate]

def c2sim : Simulation :=
  (((c2r3.1.schedule_now ⟨1⟩).schedule_now ⟨2⟩).schedule_now ⟨3⟩).schedule_now ⟨0⟩

/-- C1: the spec claims pop order is by time with FIFO tie-break on equal
times.  The code has no insertion counter (`EventEntry` is ordered by
`Reverse(time)` alone; the seq/id mechanism is commented out in
`scheduler.rs`), so `BinaryHeap` pops equal-time entries in its internal
order: four equal-time entries inserted as keys 0,1,2,3 pop as 0,2,1,3 —
key 1 was inserted before key 2 yet pops after it. -/
theorem C1_fifo_tiebreak_violated :
    popKeys 4 fourEqual = [⟨0⟩, ⟨2⟩, ⟨1⟩, ⟨3⟩] ∧
    ([⟨0⟩, ⟨2⟩, ⟨1⟩, ⟨3⟩] : List Key) ≠ [⟨0⟩, ⟨1⟩, ⟨2⟩, ⟨3⟩] := by
  decide

/-- C2: the spec claims that after `ActivateMany [a, b, c]` at time t the
resumes at t occur in order self, a, b, c.  In the S4-style scenario the
peers (keys 1, 2, 3) passivate, then X (key 0) yields
`ActivateMany [1, 2, 3]`; the driver does issue `schedule_now` for self then
1, 2, 3 in that order, but the scheduler has no FIFO tie-break, so the four
equal-time resumes come out as X, 2, 1, 3 instead of X, 1, 2, 3. -/
theorem C2_activation_order_violated :
    (Simulation.run 9 c2sim).toOption.map
        (fun r => r.1.map (fun e => (e.time, e.component.id))) =
      some [(0, 1), (0, 3), (0, 2), (0, 0), (0, 0), (0, 2), (0, 1), (0, 3)] ∧
    ([0, 2, 1, 3] : List Nat) ≠ [0, 1, 2, 3] := by
  decide

/-- C3: for every sequence of `schedule` (delays are naturals, hence
non-negative) and `pop` operations started from a fresh scheduler, the clock
values observed across the successive pops are pairwise non-decreasing. -/
theorem C3_clock_monotone (ops : List SOp) :
    List.Pairwise (fun a b => a ≤ b) (schedRun Scheduler.init ops).2 :=
  (schedRun_spec ops Scheduler.init SchedInv_init).2.2.2

/-- C4 counterexample: in the S1 scenario (one process yielding `Hold(0)`
three times then returning, `schedule_now`, run until empty) the run does
make exactly 4 resumes and ends at time 0 with the process removed, but
`len()` is 1, not 0: `Container::remove` only vacates the slot
(`inner[key].take()`), and `len()` returns the backing vector's length. -/
theorem C4_len_zero_counterexample :
    Simulation.run 5 c4sim =
      .ok ([⟨0, ⟨0⟩⟩, ⟨0, ⟨0⟩⟩, ⟨0, ⟨0⟩⟩, ⟨0, ⟨0⟩⟩],
        ⟨⟨[], 0⟩, ⟨[none]⟩⟩, true) ∧
    (⟨[none]⟩ : Container).len = 1 ∧ ¬ ((⟨[none]⟩ : Container).len = 0) := by
  decide

/-- C4 (amended): registering a single process that yields `Hold(0)` three
times then returns, calling `schedule_now(k)` and running until the queue is
empty yields exactly 4 resumes of that process (all at time 0), final
`time() = 0`, the completed process removed from its slot
(`get_state k = none`), and `len() = 1`: the vacated slot remains as a
tombstone, so the container is also not `is_empty`. -/
theorem C4_single_process_amended :
    Simulation.run 5 c4sim =
      .ok (List.replicate 4 ⟨0, ⟨0⟩⟩, ⟨⟨[], 0⟩, ⟨[none]⟩⟩, true) ∧
    (⟨⟨[], 0⟩, ⟨[none]⟩⟩ : Simulation).time = 0 ∧
    (⟨[none]⟩ : Container).len = 1 ∧
    (⟨[none]⟩ : Container).get_state ⟨0⟩ = none ∧
    (⟨[none]⟩ : Container).is_empty = false := by
  decide

/-- C5: a process yielding only `Hold d_i`, initially scheduled at time `t0`
in a fresh simulation, is resumed exactly at the times
`t0, t0+d_1, t0+d_1+d_2, ...` and the run ends with the clock at `t0` plus
the sum of the holds; in particular (scenario S3) with `Hold 5` then `Hold 2`
scheduled now at time 0 the resume times are 0, 5, 7 and the final `time()`
is 7. -/
theorem C5_hold_roundtrip :
    (∀ (ds : List Nat) (t0 : Nat),
      Simulation.run (ds.length + 2) (holdSimOf ds t0) =
        .ok ((holdTimes t0 ds).map (fun x => EventEntry.mk x ⟨0⟩),
          ⟨⟨[], t0 + ds.sum⟩, ⟨[none]⟩⟩, true)) ∧
    Simulation.run 4 c5sim =
      .ok ([⟨0, ⟨0⟩⟩, ⟨5, ⟨0⟩⟩, ⟨7, ⟨0⟩⟩], ⟨⟨[], 7⟩, ⟨[none]⟩⟩, true) ∧
    (⟨⟨[], 7⟩, ⟨[none]⟩⟩ : Simulation).time = 7 := by
  refine ⟨fun ds t0 => ?_, by decide, rfl⟩
  have hsim : holdSimOf ds t0 =
      ⟨⟨[⟨t0, ⟨0⟩⟩], 0⟩, ⟨[some (ds.map Action.Hold, .Active)]⟩⟩ := by
    simp only [holdSimOf, Simulation.add_generator, Simulation.schedule,
      Scheduler.schedule, Scheduler.time, Container.add_generator,
      Simulation.init, Scheduler.init, Container.empty, Nat.zero_add,
      List.nil_append]
    rfl
  rw [hsim]
  exact holdRun ds t0 0

/-- C10: `Container::remove` never shrinks the container: `len()` is the same
before and after `remove(k)` for every key; a second `remove(k)` returns
`None` and leaves the container unchanged; and for containers built by any
history of registrations and removals, `len()` equals the total number of
registrations ever made. -/
theorem C10_remove_preserves_len :
    (∀ (c : Container) (k : Key), ((c.remove k).2).len = c.len) ∧
    (∀ (c : Container) (k : Key), ((c.remove k).2).remove k = (none, (c.remove k).2)) ∧
    (∀ ops : List COp, (crun Container.empty ops).len = countAdds ops) := by
  refine ⟨remove_len, fun c k => ?_, fun ops => ?_⟩
  · cases hk : c.inner.get? k.id with
    | none =>
      have h1 : c.remove k = (none, c) := by
        unfold Container.remove
        rw [hk]
      rw [h1]
      exact h1
    | some slot =>
      have hlt : k.id < c.inner.length := gget_lt hk
      have h1 : c.remove k = (slot, ⟨c.inner.set k.id none⟩) := by
        unfold Container.remove
        rw [hk]
      rw [h1]
      have h2 : (⟨c.inner.set k.id none⟩ : Container).inner.get? k.id = some none :=
        gset_self none hlt
      unfold Container.remove
      rw [h2, gset_set]
  · rw [crun_len]
    exact Nat.zero_add (countAdds ops)

/-- C6: key allocation is strictly monotonic and equal to the insertion index
(the keys of the successive registrations of any history are exactly
`0, 1, 2, ...`, so a key is never handed out twice); a registration never
changes any other slot and a removal never changes any other slot (so a key
keeps identifying its slot); and once a registered key is removed, state
queries through it answer `none` forever after. -/
theorem C6_key_stability :
    (∀ ops : List COp, addedKeys Container.empty ops = List.range' 0 (countAdds ops)) ∧
    (∀ (c : Container) (p : Process) (j : Nat), j ≠ c.len →
      ((c.add_generator p).1).get_state ⟨j⟩ = c.get_state ⟨j⟩) ∧
    (∀ (c : Container) (k : Key) (j : Nat), j ≠ k.id →
      ((c.remove k).2).get_state ⟨j⟩ = c.get_state ⟨j⟩) ∧
    (∀ (ops tail : List COp) (i : Nat), i < (crun Container.empty ops).len →
      (crun Container.empty (ops ++ COp.rem i :: tail)).get_state ⟨i⟩ = none) := by
  refine ⟨fun ops => addedKeys_range ops Container.empty,
    fun c p j h => add_get_state c p h,
    fun c k j h => remove_get_state c k h,
    fun ops tail i h => ?_⟩
  rw [crun_append]
  show (crun ((crun Container.empty ops).remove ⟨i⟩).2 tail).get_state ⟨i⟩ = none
  exact get_state_of_none (crun_none tail _ i (remove_tombstone h))

/-- Witness for C6 at a concrete history: keys 0 then 1 are handed out across
an interleaved removal; a registration and a removal leave an unrelated slot's
state unchanged; and after removing key 0 a later registration does not revive
it. -/
theorem C6_key_stability_witness :
    addedKeys Container.empty [COp.add [], COp.rem 0, COp.add []] = [0, 1] ∧
    ((⟨[some ([], .Active)]⟩ : Container).add_generator []).1.get_state ⟨0⟩ =
      (⟨[some ([], .Active)]⟩ : Container).get_state ⟨0⟩ ∧
    ((⟨[some ([], .Active), some ([], .Active)]⟩ : Container).remove ⟨1⟩).2.get_state ⟨0⟩ =
      (⟨[some ([], .Active), some ([], .Active)]⟩ : Container).get_state ⟨0⟩ ∧
    (crun Container.empty ([COp.add []] ++ COp.rem 0 :: [COp.add []])).get_state ⟨0⟩ = none :=
  ⟨C6_key_stability.1 [COp.add [], COp.rem 0, COp.add []],
   C6_key_stability.2.1 ⟨[some ([], .Active)]⟩ [] 0 (by decide),
   C6_key_stability.2.2.1 ⟨[some ([], .Active), some ([], .Active)]⟩ ⟨1⟩ 0 (by decide),
   C6_key_stability.2.2.2 [COp.add []] [COp.add []] 0 (by decide)⟩

/-- C7: when the driver receives `Yielded(Passivate)` from a process whose
slot state is `Active`, it sets that state to `Passivated` and does not
reschedule (the resulting scheduler is exactly the post-pop scheduler);
when the slot state already reads `Passivated` it aborts with
`PassivateOnPassivated`, and the state at the panic point has the same
scheduler and the same component states (the slot's recorded state map is
untouched by the handler). -/
theorem C7_passivate_branch (s : Simulation) (sch1 : Scheduler) (ev : EventEntry)
    (more : Process) (st : ComponentState)
    (hpop : s.scheduler.pop = (some ev, sch1))
    (hslot : s.components.inner.get? ev.component.id =
      some (some (Action.Passivate :: more, st))) :
    (st = .Active → s.step_with = .ok (some ev,
      ⟨sch1, ⟨s.components.inner.set ev.component.id (some (more, .Passivated))⟩⟩)) ∧
    (st = .Passivated → s.step_with = .error (.passivateOnPassivated ev.component.id,
      ⟨sch1, ⟨s.components.inner.set ev.component.id (some (more, .Passivated))⟩⟩)) ∧
    (∀ j : Key,
      (⟨s.components.inner.set ev.component.id (some (more, st))⟩ : Container).get_state j =
        s.components.get_state j) := by
  have hlt : ev.component.id < s.components.inner.length := gget_lt hslot
  have hstep := step_with_yield hslot
  refine ⟨fun hst => ?_, fun hst => ?_, fun j => ?_⟩
  · subst hst
    have hc1 : (⟨s.components.inner.set ev.component.id
        (some (more, ComponentState.Active))⟩ : Container).get_state ev.component =
        some ComponentState.Active := get_state_eq (gset_self _ hlt)
    have hss : (⟨s.components.inner.set ev.component.id
        (some (more, ComponentState.Active))⟩ : Container).set_state ev.component
        ComponentState.Passivated =
        ⟨s.components.inner.set ev.component.id (some (more, .Passivated))⟩ := by
      rw [set_state_eq (gset_self _ hlt), gset_set]
    simp only [Simulation.step_with, hpop, hstep, hc1, hss]
  · subst hst
    have hc1 : (⟨s.components.inner.set ev.component.id
        (some (more, ComponentState.Passivated))⟩ : Container).get_state ev.component =
        some ComponentState.Passivated := get_state_eq (gset_self _ hlt)
    simp only [Simulation.step_with, hpop, hstep, hc1]
  · by_cases hj : j.id = ev.component.id
    · unfold Container.get_state
      rw [hj, gset_self _ hlt, hslot]
    · unfold Container.get_state
      rw [gset_ne _ (fun hc => hj hc.symm)]

/-- Witness for C7 on concrete one-process simulations: an `Active` process
yielding `Passivate` is passivated without rescheduling, a `Passivated` slot
yields the fatal `PassivateOnPassivated`, and the panic-point container
reports the same state for key 0 as the original container. -/
theorem C7_passivate_branch_witness :
    ((⟨⟨[⟨0, ⟨0⟩⟩], 0⟩, ⟨[some ([Action.Passivate], .Active)]⟩⟩ : Simulation).step_with =
      .ok (some ⟨0, ⟨0⟩⟩, ⟨⟨[], 0⟩, ⟨[some ([], .Passivated)]⟩⟩)) ∧
    ((⟨⟨[⟨0, ⟨0⟩⟩], 0⟩, ⟨[some ([Action.Passivate], .Passivated)]⟩⟩ : Simulation).step_with =
      .error (.passivateOnPassivated 0, ⟨⟨[], 0⟩, ⟨[some ([], .Passivated)]⟩⟩)) ∧
    (⟨[some ([], .Passivated)]⟩ : Container).get_state ⟨0⟩ =
      (⟨[some ([Action.Passivate], .Passivated)]⟩ : Container).get_state ⟨0⟩ :=
  ⟨(C7_passivate_branch ⟨⟨[⟨0, ⟨0⟩⟩], 0⟩, ⟨[some ([Action.Passivate], .Active)]⟩⟩
      ⟨[], 0⟩ ⟨0, ⟨0⟩⟩ [] .Active (by decide) (by decide)).1 rfl,
   (C7_passivate_branch ⟨⟨[⟨0, ⟨0⟩⟩], 0⟩, ⟨[some ([Action.Passivate], .Passivated)]⟩⟩
      ⟨[], 0⟩ ⟨0, ⟨0⟩⟩ [] .Passivated (by decide) (by decide)).2.1 rfl,
   (C7_passivate_branch ⟨⟨[⟨0, ⟨0⟩⟩], 0⟩, ⟨[some ([Action.Passivate], .Passivated)]⟩⟩
      ⟨[], 0⟩ ⟨0, ⟨0⟩⟩ [] .Passivated (by decide) (by decide)).2.2 ⟨0⟩⟩

/-- C8: when an `Active` process yields `ActivateOne(other)`: if `other`'s
state is `Active` the driver aborts with the fatal activate-on-already-active
panic; if it is `Passivated`, `other` is promoted to `Active` and the
resulting scheduler is the post-pop scheduler with self scheduled now and
then `other` scheduled now — the `schedule_now(self)` push is issued before
the `schedule_now(other)` push, both at the current time. -/
theorem C8_activate_one_branch (s : Simulation) (sch1 : Scheduler) (ev : EventEntry)
    (other : Key) (more po : Process) (sto : ComponentState)
    (hpop : s.scheduler.pop = (some ev, sch1))
    (hslot : s.components.inner.get? ev.component.id =
      some (some (Action.ActivateOne other :: more, ComponentState.Active)))
    (hne : other.id ≠ ev.component.id)
    (hoslot : s.components.inner.get? other.id = some (some (po, sto))) :
    (sto = .Active → s.step_with = .error (.activateAlreadyActive other.id,
      ⟨sch1.schedule_now ev.component,
        ⟨s.components.inner.set ev.component.id (some (more, .Active))⟩⟩)) ∧
    (sto = .Passivated → s.step_with = .ok (some ev,
      ⟨(sch1.schedule_now ev.component).schedule_now other,
        ⟨(s.components.inner.set ev.component.id (some (more, .Active))).set other.id
          (some (po, .Active))⟩⟩)) ∧
    ((sch1.schedule_now ev.component).schedule_now other).events =
      heapPush (heapPush sch1.events ⟨sch1.clock, ev.component⟩) ⟨sch1.clock, other⟩ := by
  have hlt : ev.component.id < s.components.inner.length := gget_lt hslot
  have hstep := step_with_yield hslot
  have hc1self : (⟨s.components.inner.set ev.component.id
      (some (more, ComponentState.Active))⟩ : Container).get_state ev.component =
      some ComponentState.Active := get_state_eq (gset_self _ hlt)
  have hc1oslot : (⟨s.components.inner.set ev.component.id
      (some (more, ComponentState.Active))⟩ : Container).inner.get? other.id =
      some (some (po, sto)) := by
    show (s.components.inner.set ev.component.id
      (some (more, ComponentState.Active))).get? other.id = _
    rw [gset_ne _ (fun hc => hne hc.symm)]
    exact hoslot
  have hc1other := get_state_eq hc1oslot
  refine ⟨fun hst => ?_, fun hst => ?_, rfl⟩
  · subst hst
    simp only [Simulation.step_with, hpop, hstep, hc1self, hc1other]
  · subst hst
    have hss : (⟨s.components.inner.set ev.component.id
        (some (more, ComponentState.Active))⟩ : Container).set_state other
        ComponentState.Active =
        ⟨(s.components.inner.set ev.component.id (some (more, .Active))).set other.id
          (some (po, .Active))⟩ := set_state_eq hc1oslot
    simp only [Simulation.step_with, hpop, hstep, hc1self, hc1other, hss]

/-- Witness for C8 on concrete two-process simulations: activating an
already-`Active` peer aborts fatally; activating a `Passivated` peer promotes
it and schedules self before the peer at the current time, and the push order
equation holds at these concrete values. -/
theorem C8_activate_one_branch_witness :
    ((⟨⟨[⟨0, ⟨0⟩⟩], 0⟩,
        ⟨[some ([Action.ActivateOne ⟨1⟩], .Active), some ([], .Active)]⟩⟩ :
        Simulation).step_with =
      .error (.activateAlreadyActive 1,
        ⟨⟨[⟨0, ⟨0⟩⟩], 0⟩,
          ⟨[some ([], .Active), some ([], .Active)]⟩⟩)) ∧
    ((⟨⟨[⟨0, ⟨0⟩⟩], 0⟩,
        ⟨[some ([Action.ActivateOne ⟨1⟩], .Active), some ([], .Passivated)]⟩⟩ :
        Simulation).step_with =
      .ok (some ⟨0, ⟨0⟩⟩,
        ⟨⟨[⟨0, ⟨0⟩⟩, ⟨0, ⟨1⟩⟩], 0⟩,
          ⟨[some ([], .Active), some ([], .Active)]⟩⟩)) ∧
    ((⟨[], 0⟩ : Scheduler).schedule_now ⟨0⟩).schedule_now ⟨1⟩ =
      ⟨heapPush (heapPush [] ⟨0, ⟨0⟩⟩) ⟨0, ⟨1⟩⟩, 0⟩ :=
  ⟨(C8_activate_one_branch
      ⟨⟨[⟨0, ⟨0⟩⟩], 0⟩, ⟨[some ([Action.ActivateOne ⟨1⟩], .Active), some ([], .Active)]⟩⟩
      ⟨[], 0⟩ ⟨0, ⟨0⟩⟩ ⟨1⟩ [] [] .Active
      (by decide) (by decide) (by decide) (by decide)).1 rfl,
   (C8_activate_one_branch
      ⟨⟨[⟨0, ⟨0⟩⟩], 0⟩, ⟨[some ([Action.ActivateOne ⟨1⟩], .Active), some ([], .Passivated)]⟩⟩
      ⟨[], 0⟩ ⟨0, ⟨0⟩⟩ ⟨1⟩ [] [] .Passivated
      (by decide) (by decide) (by decide) (by decide)).2.1 rfl,
   by decide⟩

/-- C9: for every scheduler reachable by a sequence of API calls, `pop`
returns `None` exactly when the queue is empty, a `None` pop leaves the whole
scheduler (clock included) unchanged, and a `Some e` pop returns a pending
entry of minimal time and sets the clock to that entry's time. -/
theorem C9_pop_contract (ops : List SOp) :
    (((schedRun Scheduler.init ops).1.pop).1 = none ↔
      (schedRun Scheduler.init ops).1.events = []) ∧
    (((schedRun Scheduler.init ops).1.pop).1 = none →
      ((schedRun Scheduler.init ops).1.pop).2 = (schedRun Scheduler.init ops).1) ∧
    (∀ e, ((schedRun Scheduler.init ops).1.pop).1 = some e →
      e ∈ (schedRun Scheduler.init ops).1.events ∧
      (∀ x ∈ (schedRun Scheduler.init ops).1.events, e.time ≤ x.time) ∧
      ((schedRun Scheduler.init ops).1.pop).2.clock = e.time) := by
  have hinv := (schedRun_spec ops Scheduler.init SchedInv_init).1
  refine ⟨Scheduler_pop_none_iff _, fun h => Scheduler_pop_none_fix h, fun e he => ?_⟩
  have hp : (schedRun Scheduler.init ops).1.pop =
      (some e, ((schedRun Scheduler.init ops).1.pop).2) := by
    rw [← he]
  have hs := Scheduler_pop_some hinv hp
  exact ⟨hs.1, hs.2.1, hs.2.2.2.1⟩

/-- Witness for C9 at a concrete history: after scheduling delays 5 and 3 the
pop returns the entry at time 3 (the minimum, also not above the other pending
time 5), and the clock advances to 3. -/
theorem C9_pop_contract_witness :
    (⟨3, ⟨1⟩⟩ : EventEntry) ∈ (schedRun Scheduler.init
      [SOp.sched 5 ⟨0⟩, SOp.sched 3 ⟨1⟩]).1.events ∧
    (3 : Nat) ≤ (5 : Nat) ∧
    ((schedRun Scheduler.init [SOp.sched 5 ⟨0⟩, SOp.sched 3 ⟨1⟩]).1.pop).2.clock = 3 := by
  have h := (C9_pop_contract [SOp.sched 5 ⟨0⟩, SOp.sched 3 ⟨1⟩]).2.2 ⟨3, ⟨1⟩⟩ (by decide)
  exact ⟨h.1, h.2.1 ⟨5, ⟨0⟩⟩ (by decide), h.2.2⟩

end RustSim
